import Mathlib

/-!
# Verification of the cube-sorcerer state model and search engine

Shallow embedding of the repository's cube model (`RubiksCube` in the cube
model module) and of its solver (`RubiksSolver` in
`src/utils/solverAlgorithms.ts`), together with proofs settling the frozen
claims about the specification.

Modelling conventions:
* A facelet color (`FaceColor` enum, values 0..5) is a `Fin 6`.
* A face is a record of its nine entries `mIJ` for row `I`, column `J`,
  mirroring the `3x3` array `face[i][j]` of the source.
* `CubeState` is a record of the six faces in enum order
  WHITE=0, RED=1, GREEN=2, YELLOW=3, ORANGE=4, BLUE=5.
* Move identifiers are naturals; the source's `Move` enum assigns
  U=0, U_PRIME=1, R=2, R_PRIME=3, F=4, F_PRIME=5, D=6, D_PRIME=7,
  L=8, L_PRIME=9, B=10, B_PRIME=11.
* Wall-clock fields (`solutionTime`) are not modelled.
* `while` loops are modelled with an explicit fuel argument; each loop in the
  source increments a counter checked against a bound each iteration, so a
  fuel equal to that bound is exact (lemmas below never hit the fuel-0 case
  on the runs they describe).
-/

/-- One face: a 3x3 grid of facelet colors, `mIJ` is `face[I][J]` of the
source (row `I`, column `J`). -/
structure Face where
  m00 : Fin 6
  m01 : Fin 6
  m02 : Fin 6
  m10 : Fin 6
  m11 : Fin 6
  m12 : Fin 6
  m20 : Fin 6
  m21 : Fin 6
  m22 : Fin 6
deriving DecidableEq

/-- The full cube state: six faces, fields in the `FaceColor` enum order used
to index `state.faces` in the source. -/
structure CubeState where
  white : Face
  red : Face
  green : Face
  yellow : Face
  orange : Face
  blue : Face
deriving DecidableEq

/-- `rotateFaceClockwise`: `face[i][j] = temp[2 - j][i]` for a copied `temp`. -/
def rotateFaceClockwise (f : Face) : Face :=
  ⟨f.m20, f.m10, f.m00, f.m21, f.m11, f.m01, f.m22, f.m12, f.m02⟩

/-- `rotateFaceCounterClockwise`: `face[i][j] = temp[j][2 - i]`. -/
def rotateFaceCounterClockwise (f : Face) : Face :=
  ⟨f.m02, f.m12, f.m22, f.m01, f.m11, f.m21, f.m00, f.m10, f.m20⟩

/-- `moveU`: rotate the WHITE face clockwise and cycle the top rows
GREEN ← ORANGE ← BLUE ← RED ← (old GREEN, saved in `temp`).  All reads are
from the pre-move state, as the source's `temp` buffer arranges. -/
def moveU (s : CubeState) : CubeState :=
  { white := rotateFaceClockwise s.white
    red := { s.red with m00 := s.green.m00, m01 := s.green.m01, m02 := s.green.m02 }
    green := { s.green with m00 := s.orange.m00, m01 := s.orange.m01, m02 := s.orange.m02 }
    yellow := s.yellow
    orange := { s.orange with m00 := s.blue.m00, m01 := s.blue.m01, m02 := s.blue.m02 }
    blue := { s.blue with m00 := s.red.m00, m01 := s.red.m01, m02 := s.red.m02 } }

/-- `moveUPrime`: rotate the WHITE face counter-clockwise and cycle the top
rows in the reverse order GREEN ← RED ← BLUE ← ORANGE ← (old GREEN). -/
def moveUPrime (s : CubeState) : CubeState :=
  { white := rotateFaceCounterClockwise s.white
    red := { s.red with m00 := s.blue.m00, m01 := s.blue.m01, m02 := s.blue.m02 }
    green := { s.green with m00 := s.red.m00, m01 := s.red.m01, m02 := s.red.m02 }
    yellow := s.yellow
    orange := { s.orange with m00 := s.green.m00, m01 := s.green.m01, m02 := s.green.m02 }
    blue := { s.blue with m00 := s.orange.m00, m01 := s.orange.m01, m02 := s.orange.m02 } }

/-- `moveR`: rotate the RED face clockwise; `white[i][2] ← green[i][2]`,
`green[i][2] ← yellow[i][2]`, `yellow[i][2] ← blue[2-i][0]`,
`blue[2-i][0] ← temp[i]` with `temp[i] = old white[i][2]`. -/
def moveR (s : CubeState) : CubeState :=
  { white := { s.white with m02 := s.green.m02, m12 := s.green.m12, m22 := s.green.m22 }
    red := rotateFaceClockwise s.red
    green := { s.green with m02 := s.yellow.m02, m12 := s.yellow.m12, m22 := s.yellow.m22 }
    yellow := { s.yellow with m02 := s.blue.m20, m12 := s.blue.m10, m22 := s.blue.m00 }
    orange := s.orange
    blue := { s.blue with m20 := s.white.m02, m10 := s.white.m12, m00 := s.white.m22 } }

/-- `moveRPrime`: rotate the RED face counter-clockwise;
`white[i][2] ← blue[2-i][0]`, `blue[2-i][0] ← yellow[i][2]`,
`yellow[i][2] ← green[i][2]`, `green[i][2] ← temp[i]` with
`temp[i] = old white[i][2]`. -/
def moveRPrime (s : CubeState) : CubeState :=
  { white := { s.white with m02 := s.blue.m20, m12 := s.blue.m10, m22 := s.blue.m00 }
    red := rotateFaceCounterClockwise s.red
    green := { s.green with m02 := s.white.m02, m12 := s.white.m12, m22 := s.white.m22 }
    yellow := { s.yellow with m02 := s.green.m02, m12 := s.green.m12, m22 := s.green.m22 }
    orange := s.orange
    blue := { s.blue with m20 := s.yellow.m02, m10 := s.yellow.m12, m00 := s.yellow.m22 } }

/-- `applyMove`: the `switch` dispatch.  Cases exist only for `U`, `U_PRIME`,
`R`, `R_PRIME` (identifiers 0..3); every other identifier falls through to
`default`, which only logs a warning and leaves the state untouched. -/
def applyMove (s : CubeState) (m : Nat) : CubeState :=
  match m with
  | 0 => moveU s
  | 1 => moveUPrime s
  | 2 => moveR s
  | 3 => moveRPrime s
  | _ + 4 => s

/-- `applyMoves`: `moves.forEach(move => this.applyMove(move))`. -/
def applyMoves (s : CubeState) (ms : List Nat) : CubeState :=
  ms.foldl applyMove s

/-- `createSolvedState`: face `i` uniformly colored `i`. -/
def createSolvedState : CubeState :=
  { white := ⟨0, 0, 0, 0, 0, 0, 0, 0, 0⟩
    red := ⟨1, 1, 1, 1, 1, 1, 1, 1, 1⟩
    green := ⟨2, 2, 2, 2, 2, 2, 2, 2, 2⟩
    yellow := ⟨3, 3, 3, 3, 3, 3, 3, 3, 3⟩
    orange := ⟨4, 4, 4, 4, 4, 4, 4, 4, 4⟩
    blue := ⟨5, 5, 5, 5, 5, 5, 5, 5, 5⟩ }

/-- All nine facelets of `f` equal `c` (the inner two loops of `isSolved`). -/
def faceIs (f : Face) (c : Fin 6) : Bool :=
  f.m00 = c ∧ f.m01 = c ∧ f.m02 = c ∧ f.m10 = c ∧ f.m11 = c ∧ f.m12 = c ∧
    f.m20 = c ∧ f.m21 = c ∧ f.m22 = c

/-- `isSolved`: every facelet of face `i` equals color `i`. -/
def isSolved (s : CubeState) : Bool :=
  faceIs s.white 0 && faceIs s.red 1 && faceIs s.green 2 && faceIs s.yellow 3 &&
    faceIs s.orange 4 && faceIs s.blue 5

/-- The character a color renders to inside `JSON.stringify` (a single
decimal digit, the colors being 0..5). -/
def colorChar (c : Fin 6) : Char := Char.ofNat (48 + c.val)

/-- The exact character sequence `JSON.stringify` produces for one face,
for example a solved white face gives `[[0,0,0],[0,0,0],[0,0,0]]`. -/
def faceChars (f : Face) : List Char :=
  ['[', '[', colorChar f.m00, ',', colorChar f.m01, ',', colorChar f.m02, ']', ',',
    '[', colorChar f.m10, ',', colorChar f.m11, ',', colorChar f.m12, ']', ',',
    '[', colorChar f.m20, ',', colorChar f.m21, ',', colorChar f.m22, ']', ']']

/-- `getStateHash`: `JSON.stringify(this.state.faces)` — the six face arrays
in enum order, wrapped in one outer array. -/
def getStateHash (s : CubeState) : String :=
  ⟨('[' :: faceChars s.white) ++ ((',' :: faceChars s.red) ++ ((',' :: faceChars s.green) ++
    ((',' :: faceChars s.yellow) ++ ((',' :: faceChars s.orange) ++
      ((',' :: faceChars s.blue) ++ [']'])))))⟩

/-- The inner two loops of `getManhattanDistance`: how many of the nine
facelets of `f` differ from the face's canonical color `c`. -/
def faceMisplaced (f : Face) (c : Fin 6) : Nat :=
  (if f.m00 = c then 0 else 1) + (if f.m01 = c then 0 else 1) + (if f.m02 = c then 0 else 1) +
    (if f.m10 = c then 0 else 1) + (if f.m11 = c then 0 else 1) + (if f.m12 = c then 0 else 1) +
    (if f.m20 = c then 0 else 1) + (if f.m21 = c then 0 else 1) + (if f.m22 = c then 0 else 1)

/-- `getManhattanDistance`: the count of facelets whose color differs from
their face index. -/
def getManhattanDistance (s : CubeState) : Nat :=
  faceMisplaced s.white 0 + faceMisplaced s.red 1 + faceMisplaced s.green 2 +
    faceMisplaced s.yellow 3 + faceMisplaced s.orange 4 + faceMisplaced s.blue 5

/-- The `heuristic` closure of `solveKorfIDA`:
`Math.floor(getManhattanDistance() / 4)`. -/
def heuristic (s : CubeState) : Nat := getManhattanDistance s / 4

/-- The loop body of `scramble`, running `n` more iterations with `i` draws
already made.  `pick i` models the `i`-th `Math.floor(Math.random() * 12)`
draw: an index into `possibleMoves = Object.values(Move)`, which is the list
`[0, .., 11]`, so the index is the move identifier itself. -/
def scrambleGo : CubeState → (Nat → Fin 12) → Nat → Nat → CubeState × List Nat
  | s, _, _, 0 => (s, [])
  | s, pick, i, n + 1 =>
    let m : Nat := pick i
    let r := scrambleGo (applyMove s m) pick (i + 1) n
    (r.1, m :: r.2)

/-- `scramble(moveCount)`: applies `moveCount` random draws and returns the
final state together with the move list.  The count is a JavaScript number;
the `for` loop with `i < moveCount` runs `max moveCount 0` times, which is
`Int.toNat`. -/
def scramble (s : CubeState) (moveCount : Int) (pick : Nat → Fin 12) :
    CubeState × List Nat :=
  scrambleGo s pick 0 moveCount.toNat

/-- Modelled from the spec: the inverse of a move is the opposite-direction
quarter turn of the same face; in the `Move` enum the plain turn is the even
identifier `2k` and its prime the odd `2k + 1`.  (The source defines no
inverse function; this definition exists to state the spec's inverse law.) -/
def inverseMove (m : Nat) : Nat := if m % 2 = 0 then m + 1 else m - 1

/-- The full 12-value `Move` enum. -/
def legalMoves : List Nat := [0, 1, 2, 3, 4, 5, 6, 7, 8, 9, 10, 11]

/-- The literal move list every search strategy branches over
(`const possibleMoves = [Move.U, Move.U_PRIME, Move.R, Move.R_PRIME]`). -/
def possibleMoves : List Nat := [0, 1, 2, 3]

/-- The six clockwise quarter-turn identifiers, one per face. -/
def clockwiseMoves : List Nat := [0, 2, 4, 6, 8, 10]

/-! ## The search engine -/

/-- `SearchNode` of the solver: an owned state clone, the path from the
start, its depth, and the (unused by BFS) accumulated cost. -/
structure SearchNode where
  cube : CubeState
  moves : List Nat
  depth : Nat
  cost : Nat

/-- `SolverResult` minus the wall-clock `solutionTime` field. -/
structure SolverResult where
  moves : List Nat
  nodesExplored : Nat
  algorithmUsed : String
deriving DecidableEq

/-- `private maxNodes = 100000`. -/
def maxNodes : Nat := 100000

/-- The `for (const move of possibleMoves)` body of `solveBFS`: clone, apply
the move, and if the fingerprint is unseen, record it and enqueue the child. -/
def bfsExpand (cur : SearchNode) :
    List Nat → List SearchNode × List String → List SearchNode × List String
  | [], qv => qv
  | m :: ms, (q, v) =>
    let c := applyMove cur.cube m
    let h := getStateHash c
    if h ∈ v then bfsExpand cur ms (q, v)
    else bfsExpand cur ms (q ++ [⟨c, cur.moves ++ [m], cur.depth + 1, 0⟩], v ++ [h])

/-- The `while (queue.length > 0 && nodesExplored < this.maxNodes)` loop of
`solveBFS`.  Each iteration increments `explored` and the guard bounds it by
`maxNodes`, so `maxNodes - explored` fuel is exact. -/
def bfsLoop : Nat → List SearchNode → List String → Nat → SolverResult
  | 0, _, _, explored => ⟨[], explored, "BFS"⟩
  | _ + 1, [], _, explored => ⟨[], explored, "BFS"⟩
  | fuel + 1, cur :: rest, visited, explored =>
    if maxNodes ≤ explored then ⟨[], explored, "BFS"⟩
    else if isSolved cur.cube then ⟨cur.moves, explored + 1, "BFS"⟩
    else
      let qv := bfsExpand cur possibleMoves (rest, visited)
      bfsLoop fuel qv.1 qv.2 (explored + 1)

/-- `solveBFS`: seed the queue with the start clone and the visited set with
its fingerprint. -/
def solveBFS (cube : CubeState) : SolverResult :=
  bfsLoop maxNodes [⟨cube, [], 0, 0⟩] [getStateHash cube] 0

/-- Only the freshly enqueued children of one expansion (proof artifact:
`bfsExpand` equals appending these to the queue and their fingerprints to the
visited list). -/
def bfsKids (cur : SearchNode) : List Nat → List String → List SearchNode
  | [], _ => []
  | m :: ms, v =>
    let c := applyMove cur.cube m
    let h := getStateHash c
    if h ∈ v then bfsKids cur ms v
    else ⟨c, cur.moves ++ [m], cur.depth + 1, 0⟩ :: bfsKids cur ms (v ++ [h])

/-- The list of nodes `solveBFS` dequeues (the nodes `nodesExplored` counts),
mirroring `bfsLoop` step for step. -/
def bfsTraceLoop : Nat → List SearchNode → List String → Nat → List SearchNode
  | 0, _, _, _ => []
  | _ + 1, [], _, _ => []
  | fuel + 1, cur :: rest, visited, explored =>
    if maxNodes ≤ explored then []
    else if isSolved cur.cube then [cur]
    else
      let qv := bfsExpand cur possibleMoves (rest, visited)
      cur :: bfsTraceLoop fuel qv.1 qv.2 (explored + 1)

/-- The nodes actually explored by a `solveBFS` run. -/
def bfsTrace (cube : CubeState) : List SearchNode :=
  bfsTraceLoop maxNodes [⟨cube, [], 0, 0⟩] [getStateHash cube] 0

/-! ## Korf IDA* -/

/-- A JavaScript `number` that is either finite or `Infinity`, as used for the
`min` accumulator and the return type of `idaSearch`. -/
inductive EN where
  | inf : EN
  | fin : Nat → EN
deriving DecidableEq

/-- The strict `<` of the update `if (t < min) min = t` (anything finite is
below `Infinity`; `Infinity < Infinity` is false). -/
def EN.ltB : EN → EN → Bool
  | .inf, _ => false
  | .fin _, .inf => true
  | .fin a, .fin b => a < b

/-- Result of `idaSearch`: the sentinel `'FOUND'` carrying the solving path,
or the minimum `f`-value that exceeded the threshold. -/
inductive IdaOut where
  | found : List Nat → IdaOut
  | bound : EN → IdaOut
deriving DecidableEq

/-- The immediate-reversal skip of `idaSearch`: with a non-empty path, skip a
move that undoes the last one (U after U-prime, and so on). -/
def skipRev (path : List Nat) (m : Nat) : Bool :=
  match path.getLast? with
  | none => false
  | some last =>
    (m == 0 && last == 1) || (m == 1 && last == 0) ||
      (m == 2 && last == 3) || (m == 3 && last == 2)

/- `idaSearch` and its `for (const move of possibleMoves)` loop `idaKids`
(accumulating `min`, returning early on `'FOUND'`).  The recursion depth is
bounded because a child call has `g + 1` and any call with
`g + heuristic > threshold` returns at once, so `threshold + 1 - g` fuel is
exact; the fuel-0 body equals the prune branch that is then forced. -/
mutual
def idaSearch : Nat → CubeState → Nat → Nat → List Nat → IdaOut
  | 0, s, g, th, path =>
    let f := g + heuristic s
    if th < f then .bound (.fin f)
    else if isSolved s then .found path
    else .bound (.fin f)
  | fuel + 1, s, g, th, path =>
    let f := g + heuristic s
    if th < f then .bound (.fin f)
    else if isSolved s then .found path
    else idaKids fuel s g th path possibleMoves .inf
termination_by fuel => (fuel, 0)

def idaKids : Nat → CubeState → Nat → Nat → List Nat → List Nat → EN → IdaOut
  | _, _, _, _, _, [], acc => .bound acc
  | fuel, s, g, th, path, m :: ms, acc =>
    if skipRev path m then idaKids fuel s g th path ms acc
    else
      match idaSearch fuel (applyMove s m) (g + 1) th (path ++ [m]) with
      | .found p => .found p
      | .bound t => idaKids fuel s g th path ms (if t.ltB acc then t else acc)
termination_by fuel _ _ _ _ ms => (fuel, ms.length + 1)
end

/-- The `while (nodesExplored < this.maxNodes * 2)` driver of `solveKorfIDA`.
Each iteration adds exactly 1000 to the counter (`// Estimate nodes per
iteration`), so from counter 0 the loop runs at most 200 iterations and fuel
200 is exact. -/
def korfLoop : Nat → CubeState → Nat → Nat → SolverResult
  | 0, _, _, ex => ⟨[], ex, "KORF_IDA"⟩
  | fuel + 1, s, th, ex =>
    if ex < maxNodes * 2 then
      match idaSearch (th + 1) s 0 th [] with
      | .found p => ⟨p, ex, "KORF_IDA"⟩
      | .bound .inf => ⟨[], ex, "KORF_IDA"⟩
      | .bound (.fin t) => korfLoop fuel s t (ex + 1000)
    else ⟨[], ex, "KORF_IDA"⟩

/-- `solveKorfIDA`: threshold starts at the heuristic of the start state. -/
def solveKorfIDA (cube : CubeState) : SolverResult :=
  korfLoop 200 cube (heuristic cube) 0

/- `idaCountS` and `idaCountK`: the number of `idaSearch` invocations a call
performs, including itself — the actual count of nodes the search examines.
Mirrors `idaSearch` step for step (in particular the early exit on `'FOUND'`
stops counting siblings). -/
mutual
def idaCountS : Nat → CubeState → Nat → Nat → List Nat → Nat
  | 0, _, _, _, _ => 1
  | fuel + 1, s, g, th, path =>
    let f := g + heuristic s
    if th < f then 1
    else if isSolved s then 1
    else 1 + idaCountK fuel s g th path possibleMoves
termination_by fuel => (fuel, 0)

def idaCountK : Nat → CubeState → Nat → Nat → List Nat → List Nat → Nat
  | _, _, _, _, _, [] => 0
  | fuel, s, g, th, path, m :: ms =>
    if skipRev path m then idaCountK fuel s g th path ms
    else
      idaCountS fuel (applyMove s m) (g + 1) th (path ++ [m]) +
        match idaSearch fuel (applyMove s m) (g + 1) th (path ++ [m]) with
        | .found _ => 0
        | .bound _ => idaCountK fuel s g th path ms
termination_by fuel _ _ _ _ ms => (fuel, ms.length + 1)
end

/-- Total `idaSearch` invocations across the driver's iterations, mirroring
`korfLoop`. -/
def korfCount : Nat → CubeState → Nat → Nat → Nat
  | 0, _, _, _ => 0
  | fuel + 1, s, th, ex =>
    if ex < maxNodes * 2 then
      idaCountS (th + 1) s 0 th [] +
        match idaSearch (th + 1) s 0 th [] with
        | .found _ => 0
        | .bound .inf => 0
        | .bound (.fin t) => korfCount fuel s t (ex + 1000)
    else 0

/-- The actual number of nodes a `solveKorfIDA` call explores. -/
def solveKorfActual (cube : CubeState) : Nat :=
  korfCount 200 cube (heuristic cube) 0

/-- A state whose WHITE center facelet is RED: unreachable from (and cannot
reach) the solved state, since every implemented move fixes every center. -/
def brokenState : CubeState :=
  { createSolvedState with white := { createSolvedState.white with m11 := 1 } }

/-! ## Proof-artifact definitions

Definitions used only to state and prove the development's theorems: ranking
of move words (for the budget bound), and the BFS loop invariant. -/

/-- Base-4 value of a move word (big-endian). -/
def wordVal (w : List Nat) : Nat := w.foldl (fun a m => 4 * a + m) 0

/-- `geomS l = 1 + 4 + ... + 4^(l-1)`, the number of 4-letter words of
length below `l`. -/
def geomS : Nat → Nat
  | 0 => 0
  | l + 1 => geomS l + 4 ^ l

/-- Words ranked first by length, then by base-4 value: an injection of the
words of length at most 8 into `0, ..., 87380`. -/
def wordRank (w : List Nat) : Nat := geomS w.length + wordVal w

/-- The fingerprint a node contributes to the visited set. -/
def nodeHash (n : SearchNode) : String := getStateHash n.cube

/-- A well-formed search node: its moves are implemented moves, its cube is
the start state advanced along them, and its depth is the path length. -/
def nodeOK (start : CubeState) (n : SearchNode) : Prop :=
  (∀ m ∈ n.moves, m ∈ possibleMoves) ∧ applyMoves start n.moves = n.cube ∧
    n.depth = n.moves.length

/-- Invariant of the BFS loop, with `D` the nodes dequeued so far (in order)
and `Q` the current queue: well-formed paths, pairwise-distinct states (the
visited set is exactly the fingerprints of `D ++ Q`), non-decreasing depths,
queue depths within one of the front, every dequeued node fully expanded
into recorded states, and no dequeued node solved. -/
def bfsInv (start : CubeState) (D Q : List SearchNode) : Prop :=
  (∀ n ∈ D ++ Q, nodeOK start n) ∧
    ((D ++ Q).map SearchNode.cube).Nodup ∧
    ((D ++ Q).map SearchNode.depth).Pairwise (· ≤ ·) ∧
    (∀ n ∈ D ++ Q, ∀ hd t, Q = hd :: t → n.depth ≤ hd.depth + 1) ∧
    (∀ d ∈ D, ∀ m ∈ possibleMoves, applyMove d.cube m ∈ (D ++ Q).map SearchNode.cube) ∧
    (∀ d ∈ D, isSolved d.cube = false)

/-- Some queued node still reaches the solved state within the depth
budget `B`. -/
def bfsCov (Q : List SearchNode) (B : Nat) : Prop :=
  ∃ n ∈ Q, ∃ v : List Nat, (∀ m ∈ v, m ∈ possibleMoves) ∧
    applyMoves n.cube v = createSolvedState ∧ n.depth + v.length ≤ B

/-! ## Basic move lemmas -/

theorem applyMove_noop_of_ge (s : CubeState) (m : Nat) (h : 4 ≤ m) :
    applyMove s m = s := by
  obtain ⟨k, rfl⟩ : ∃ k, m = k + 4 := ⟨m - 4, by omega⟩
  rfl

theorem applyMove_inverse_helper (m : Nat) (hm : m < 12) (s : CubeState) :
    applyMove (applyMove s m) (inverseMove m) = s := by
  rcases m with _ | _ | _ | _ | _ | _ | _ | _ | _ | _ | _ | _ | m
  · rfl
  · rfl
  · rfl
  · rfl
  · rfl
  · rfl
  · rfl
  · rfl
  · rfl
  · rfl
  · rfl
  · rfl
  · omega

theorem applyMove_pow4_helper (m : Nat) (hm : m ∈ clockwiseMoves) (s : CubeState) :
    applyMove (applyMove (applyMove (applyMove s m) m) m) m = s := by
  simp only [clockwiseMoves, List.mem_cons, List.not_mem_nil, or_false] at hm
  rcases hm with rfl | rfl | rfl | rfl | rfl | rfl
  · rfl
  · rfl
  · rfl
  · rfl
  · rfl
  · rfl

theorem applyMove_white_center (s : CubeState) (m : Nat) :
    (applyMove s m).white.m11 = s.white.m11 := by
  rcases m with _ | _ | _ | _ | m
  · rfl
  · rfl
  · rfl
  · rfl
  · rfl

theorem applyMoves_cons (s : CubeState) (m : Nat) (ms : List Nat) :
    applyMoves s (m :: ms) = applyMoves (applyMove s m) ms := rfl

theorem applyMoves_append (s : CubeState) (l₁ l₂ : List Nat) :
    applyMoves s (l₁ ++ l₂) = applyMoves (applyMoves s l₁) l₂ := by
  simp [applyMoves, List.foldl_append]

theorem applyMoves_singleton (s : CubeState) (m : Nat) :
    applyMoves s [m] = applyMove s m := rfl

/-- `isSolved` recognises exactly the canonical solved state. -/
theorem isSolved_iff (s : CubeState) : isSolved s = true ↔ s = createSolvedState := by
  obtain ⟨w, r, g, y, o, b⟩ := s
  obtain ⟨w0, w1, w2, w3, w4, w5, w6, w7, w8⟩ := w
  obtain ⟨r0, r1, r2, r3, r4, r5, r6, r7, r8⟩ := r
  obtain ⟨g0, g1, g2, g3, g4, g5, g6, g7, g8⟩ := g
  obtain ⟨y0, y1, y2, y3, y4, y5, y6, y7, y8⟩ := y
  obtain ⟨o0, o1, o2, o3, o4, o5, o6, o7, o8⟩ := o
  obtain ⟨b0, b1, b2, b3, b4, b5, b6, b7, b8⟩ := b
  simp [isSolved, faceIs, createSolvedState, CubeState.mk.injEq, Face.mk.injEq]
  tauto

theorem not_isSolved_of_center (s : CubeState) (h : s.white.m11 ≠ 0) :
    isSolved s = false := by
  rcases hs : isSolved s with _ | _
  · rfl
  · exact absurd (congrArg (fun t => t.white.m11) ((isSolved_iff s).mp hs)) h

/-! ## Fingerprint injectivity -/

theorem colorChar_inj : ∀ a b : Fin 6, colorChar a = colorChar b → a = b := by decide

theorem faceChars_inj (f g : Face) (h : faceChars f = faceChars g) : f = g := by
  obtain ⟨f0, f1, f2, f3, f4, f5, f6, f7, f8⟩ := f
  obtain ⟨g0, g1, g2, g3, g4, g5, g6, g7, g8⟩ := g
  simp only [faceChars, List.cons.injEq, true_and, and_true] at h
  obtain ⟨h0, h1, h2, h3, h4, h5, h6, h7, h8⟩ := h
  simp only [Face.mk.injEq]
  exact ⟨colorChar_inj _ _ h0, colorChar_inj _ _ h1, colorChar_inj _ _ h2,
    colorChar_inj _ _ h3, colorChar_inj _ _ h4, colorChar_inj _ _ h5,
    colorChar_inj _ _ h6, colorChar_inj _ _ h7, colorChar_inj _ _ h8⟩

theorem getStateHash_inj (a b : CubeState) (h : getStateHash a = getStateHash b) :
    a = b := by
  have hd : (getStateHash a).data = (getStateHash b).data := by rw [h]
  simp only [getStateHash] at hd
  have l1 := List.append_inj hd rfl
  have l2 := List.append_inj l1.2 rfl
  have l3 := List.append_inj l2.2 rfl
  have l4 := List.append_inj l3.2 rfl
  have l5 := List.append_inj l4.2 rfl
  have l6 := List.append_inj l5.2 rfl
  have e1 := (List.cons.inj l1.1).2
  have e2 := (List.cons.inj l2.1).2
  have e3 := (List.cons.inj l3.1).2
  have e4 := (List.cons.inj l4.1).2
  have e5 := (List.cons.inj l5.1).2
  have e6 := (List.cons.inj l6.1).2
  obtain ⟨wa, ra, ga, ya, oa, ba⟩ := a
  obtain ⟨wb, rb, gb, yb, ob2, bb⟩ := b
  simp only [CubeState.mk.injEq]
  exact ⟨faceChars_inj _ _ e1, faceChars_inj _ _ e2, faceChars_inj _ _ e3,
    faceChars_inj _ _ e4, faceChars_inj _ _ e5, faceChars_inj _ _ e6⟩

theorem getStateHash_eq_iff (a b : CubeState) :
    getStateHash a = getStateHash b ↔ a = b :=
  ⟨getStateHash_inj a b, fun h => by rw [h]⟩

/-! ## Heuristic bounds -/

theorem faceMisplaced_le (f : Face) (c : Fin 6) : faceMisplaced f c ≤ 9 := by
  unfold faceMisplaced
  split_ifs <;> omega

theorem getManhattanDistance_le (s : CubeState) : getManhattanDistance s ≤ 54 := by
  unfold getManhattanDistance
  have h1 := faceMisplaced_le s.white 0
  have h2 := faceMisplaced_le s.red 1
  have h3 := faceMisplaced_le s.green 2
  have h4 := faceMisplaced_le s.yellow 3
  have h5 := faceMisplaced_le s.orange 4
  have h6 := faceMisplaced_le s.blue 5
  omega

theorem heuristic_le (s : CubeState) : heuristic s ≤ 13 := by
  have h := getManhattanDistance_le s
  unfold heuristic
  omega

/-! ## Undoing an arbitrary scramble with the implemented moves -/

theorem inverseMove_mem_possible (m : Nat) (h : m < 4) :
    inverseMove m ∈ possibleMoves := by
  rcases m with _ | _ | _ | _ | m
  · decide
  · decide
  · decide
  · decide
  · omega

theorem applyMove_undo (s : CubeState) (m : Nat) (h : m < 4) :
    applyMove (applyMove s m) (inverseMove m) = s :=
  applyMove_inverse_helper m (by omega) s

/-- Any move sequence applied to `s` can be undone by a sequence of at most
the same length drawn from the four implemented moves (unimplemented moves
are no-ops and need no undoing). -/
theorem exists_undo (ms : List Nat) (s : CubeState) :
    ∃ ws : List Nat, (∀ m ∈ ws, m ∈ possibleMoves) ∧ ws.length ≤ ms.length ∧
      applyMoves (applyMoves s ms) ws = s := by
  induction ms generalizing s with
  | nil => exact ⟨[], by simp, by simp, rfl⟩
  | cons m ms ih =>
    obtain ⟨ws, hmem, hlen, hundo⟩ := ih (applyMove s m)
    by_cases hm : m < 4
    · refine ⟨ws ++ [inverseMove m], ?_, ?_, ?_⟩
      · intro x hx
        rcases List.mem_append.mp hx with hx | hx
        · exact hmem x hx
        · rcases List.mem_singleton.mp hx with rfl
          exact inverseMove_mem_possible m hm
      · simp only [List.length_append, List.length_cons, List.length_nil]
        omega
      · rw [applyMoves_cons, applyMoves_append, hundo, applyMoves_singleton,
          applyMove_undo s m hm]
    · have hnoop : applyMove s m = s := applyMove_noop_of_ge s m (by omega)
      refine ⟨ws, hmem, ?_, ?_⟩
      · simp only [List.length_cons]
        omega
      · rw [applyMoves_cons, hnoop]
        rw [hnoop] at hundo
        exact hundo

/-! ## Counting move words

The BFS budget argument needs: a duplicate-free family of move words over the
four implemented moves, each of length at most 8, has at most
`1 + 4 + ... + 4^8 = 87381` members — fewer than the 100000-node budget. -/

theorem wordVal_foldl (w : List Nat) :
    ∀ a, w.foldl (fun a m => 4 * a + m) a =
      a * 4 ^ w.length + w.foldl (fun a m => 4 * a + m) 0 := by
  induction w with
  | nil => intro a; simp
  | cons m w ih =>
    intro a
    simp only [List.foldl_cons, List.length_cons]
    rw [ih (4 * a + m), ih (4 * 0 + m), pow_succ]
    ring

theorem wordVal_cons (m : Nat) (w : List Nat) :
    wordVal (m :: w) = m * 4 ^ w.length + wordVal w := by
  unfold wordVal
  simp only [List.foldl_cons]
  rw [wordVal_foldl w (4 * 0 + m)]
  ring

theorem wordVal_lt (w : List Nat) (h : ∀ m ∈ w, m < 4) :
    wordVal w < 4 ^ w.length := by
  induction w with
  | nil => simp [wordVal]
  | cons m w ih =>
    have hm : m < 4 := h m (List.mem_cons_self m w)
    have hv := ih (fun x hx => h x (List.mem_cons_of_mem m hx))
    rw [wordVal_cons, List.length_cons, pow_succ]
    calc m * 4 ^ w.length + wordVal w < m * 4 ^ w.length + 4 ^ w.length := by omega
      _ = (m + 1) * 4 ^ w.length := by ring
      _ ≤ 4 * 4 ^ w.length := by
          have : m + 1 ≤ 4 := by omega
          exact Nat.mul_le_mul_right _ this
      _ = 4 ^ w.length * 4 := by ring

theorem geomS_le_add (a : Nat) : ∀ k, geomS a ≤ geomS (a + k) := by
  intro k
  induction k with
  | zero => exact le_refl _
  | succ n ih =>
    have h2 : geomS (a + n + 1) = geomS (a + n) + 4 ^ (a + n) := rfl
    have h3 : a + (n + 1) = a + n + 1 := by omega
    rw [h3, h2]
    exact le_trans ih (Nat.le_add_right _ _)

theorem geomS_mono (a b : Nat) (h : a ≤ b) : geomS a ≤ geomS b := by
  obtain ⟨k, rfl⟩ := Nat.exists_eq_add_of_le h
  exact geomS_le_add a k

theorem wordRank_lt (w : List Nat) (hlen : w.length ≤ 8) (hm : ∀ m ∈ w, m < 4) :
    wordRank w < 87381 := by
  have h1 : wordRank w < geomS (w.length + 1) := by
    have := wordVal_lt w hm
    have h2 : geomS (w.length + 1) = geomS w.length + 4 ^ w.length := rfl
    unfold wordRank
    omega
  have h2 : geomS (w.length + 1) ≤ geomS 9 := geomS_mono _ _ (by omega)
  have h3 : geomS 9 = 87381 := by decide
  omega

theorem wordRank_length_eq (w₁ w₂ : List Nat) (h1 : ∀ m ∈ w₁, m < 4)
    (h2 : ∀ m ∈ w₂, m < 4) (h : wordRank w₁ = wordRank w₂) :
    w₁.length = w₂.length := by
  have key : ∀ u v : List Nat, (∀ m ∈ u, m < 4) → u.length < v.length →
      wordRank u < wordRank v := by
    intro u v hu hlt
    have hvu := wordVal_lt u hu
    have hg1 : geomS (u.length + 1) = geomS u.length + 4 ^ u.length := rfl
    have hg2 : geomS (u.length + 1) ≤ geomS v.length := geomS_mono _ _ (by omega)
    unfold wordRank
    omega
  rcases Nat.lt_trichotomy w₁.length w₂.length with hlt | heq | hgt
  · exact absurd h (Nat.ne_of_lt (key w₁ w₂ h1 hlt))
  · exact heq
  · exact absurd h.symm (Nat.ne_of_lt (key w₂ w₁ h2 hgt))

theorem wordVal_inj : ∀ w₁ w₂ : List Nat, w₁.length = w₂.length →
    (∀ m ∈ w₁, m < 4) → (∀ m ∈ w₂, m < 4) → wordVal w₁ = wordVal w₂ → w₁ = w₂ := by
  intro w₁
  induction w₁ with
  | nil =>
    intro w₂ hlen _ _ _
    cases w₂ with
    | nil => rfl
    | cons b t => simp at hlen
  | cons a t₁ ih =>
    intro w₂ hlen ha hb hval
    cases w₂ with
    | nil => simp at hlen
    | cons b t₂ =>
      simp only [List.length_cons, Nat.add_right_cancel_iff] at hlen
      rw [wordVal_cons, wordVal_cons, hlen] at hval
      have hv1 : wordVal t₁ < 4 ^ t₂.length := hlen ▸
        wordVal_lt t₁ (fun x hx => ha x (List.mem_cons_of_mem a hx))
      have hv2 : wordVal t₂ < 4 ^ t₂.length :=
        wordVal_lt t₂ (fun x hx => hb x (List.mem_cons_of_mem b hx))
      have hpos : 0 < 4 ^ t₂.length := Nat.pos_pow_of_pos _ (by omega)
      have hab : a = b := by
        have e1 : (a * 4 ^ t₂.length + wordVal t₁) / 4 ^ t₂.length = a := by
          rw [Nat.mul_comm a, Nat.mul_add_div hpos, Nat.div_eq_of_lt hv1]
          omega
        have e2 : (b * 4 ^ t₂.length + wordVal t₂) / 4 ^ t₂.length = b := by
          rw [Nat.mul_comm b, Nat.mul_add_div hpos, Nat.div_eq_of_lt hv2]
          omega
        rw [← e1, ← e2, hval]
      subst hab
      have hv : wordVal t₁ = wordVal t₂ := by omega
      rw [ih t₂ hlen (fun x hx => ha x (List.mem_cons_of_mem a hx))
        (fun x hx => hb x (List.mem_cons_of_mem a hx)) hv]

theorem wordRank_inj (w₁ w₂ : List Nat) (h1 : ∀ m ∈ w₁, m < 4)
    (h2 : ∀ m ∈ w₂, m < 4) (h : wordRank w₁ = wordRank w₂) : w₁ = w₂ := by
  have hlen := wordRank_length_eq w₁ w₂ h1 h2 h
  have hval : wordVal w₁ = wordVal w₂ := by
    unfold wordRank at h
    rw [hlen] at h
    omega
  exact wordVal_inj w₁ w₂ hlen h1 h2 hval

/-- A duplicate-free list of short move words has at most 87381 members. -/
theorem words_length_le (L : List (List Nat)) (hnd : L.Nodup)
    (hw : ∀ w ∈ L, (∀ m ∈ w, m < 4) ∧ w.length ≤ 8) : L.length ≤ 87381 := by
  have hmap : (L.map wordRank).Nodup := by
    refine List.Nodup.map_on ?_ hnd
    intro x hx y hy hxy
    exact wordRank_inj x y (hw x hx).1 (hw y hy).1 hxy
  have hsub : (L.map wordRank).toFinset ⊆ Finset.range 87381 := by
    intro x hx
    rw [List.mem_toFinset, List.mem_map] at hx
    obtain ⟨w, hwL, rfl⟩ := hx
    exact Finset.mem_range.mpr (wordRank_lt w (hw w hwL).2 (hw w hwL).1)
  calc L.length = (L.map wordRank).length := (List.length_map _ _).symm
    _ = (L.map wordRank).toFinset.card := (List.toFinset_card_of_nodup hmap).symm
    _ ≤ (Finset.range 87381).card := Finset.card_le_card hsub
    _ = 87381 := Finset.card_range _

/-! ## BFS expansion lemmas -/

theorem mem_possible_lt (m : Nat) (h : m ∈ possibleMoves) : m < 4 := by
  simp only [possibleMoves, List.mem_cons, List.not_mem_nil, or_false] at h
  rcases h with rfl | rfl | rfl | rfl <;> omega

theorem hash_mem_iff (c : CubeState) (l : List SearchNode) :
    getStateHash c ∈ l.map nodeHash ↔ c ∈ l.map SearchNode.cube := by
  constructor
  · intro h
    rw [List.mem_map] at h
    obtain ⟨n, hn, heq⟩ := h
    rw [List.mem_map]
    exact ⟨n, hn, getStateHash_inj _ _ heq.symm |>.symm⟩
  · intro h
    rw [List.mem_map] at h
    obtain ⟨n, hn, heq⟩ := h
    rw [List.mem_map]
    exact ⟨n, hn, by rw [nodeHash, heq]⟩

theorem bfsExpand_eq (cur : SearchNode) : ∀ (ms : List Nat) (q : List SearchNode)
    (v : List String), bfsExpand cur ms (q, v) =
      (q ++ bfsKids cur ms v, v ++ (bfsKids cur ms v).map nodeHash) := by
  intro ms
  induction ms with
  | nil => intro q v; simp [bfsExpand, bfsKids]
  | cons m ms ih =>
    intro q v
    by_cases h : getStateHash (applyMove cur.cube m) ∈ v
    · simp only [bfsExpand, bfsKids, h, if_pos]
      exact ih q v
    · simp only [bfsExpand, bfsKids, h, if_neg, not_false_iff]
      rw [ih]
      simp [nodeHash, List.append_assoc]

theorem bfsKids_mem (cur : SearchNode) : ∀ (ms : List Nat) (v : List String)
    (k : SearchNode), k ∈ bfsKids cur ms v →
      ∃ m ∈ ms, k = ⟨applyMove cur.cube m, cur.moves ++ [m], cur.depth + 1, 0⟩ := by
  intro ms
  induction ms with
  | nil => intro v k hk; simp [bfsKids] at hk
  | cons m ms ih =>
    intro v k hk
    by_cases h : getStateHash (applyMove cur.cube m) ∈ v
    · simp only [bfsKids, h, if_pos] at hk
      obtain ⟨m', hm', he⟩ := ih _ k hk
      exact ⟨m', List.mem_cons_of_mem m hm', he⟩
    · simp only [bfsKids, h, if_neg, not_false_iff, List.mem_cons] at hk
      rcases hk with rfl | hk
      · exact ⟨m, List.mem_cons_self m ms, rfl⟩
      · obtain ⟨m', hm', he⟩ := ih _ k hk
        exact ⟨m', List.mem_cons_of_mem m hm', he⟩

theorem bfsKids_nodup_hash (cur : SearchNode) : ∀ (ms : List Nat) (v : List String),
    v.Nodup → (v ++ (bfsKids cur ms v).map nodeHash).Nodup := by
  intro ms
  induction ms with
  | nil => intro v hv; simpa [bfsKids]
  | cons m ms ih =>
    intro v hv
    by_cases h : getStateHash (applyMove cur.cube m) ∈ v
    · simp only [bfsKids, h, if_pos]
      exact ih v hv
    · simp only [bfsKids, h, if_neg, not_false_iff, List.map_cons]
      have hv' : (v ++ [getStateHash (applyMove cur.cube m)]).Nodup := by
        rw [List.nodup_append]
        refine ⟨hv, List.nodup_singleton _, ?_⟩
        intro a ha hb
        rw [List.mem_singleton] at hb
        exact h (hb ▸ ha)
      have := ih (v ++ [getStateHash (applyMove cur.cube m)]) hv'
      rw [List.append_assoc] at this
      simpa [nodeHash] using this

theorem bfsKids_cover (cur : SearchNode) : ∀ (ms : List Nat) (v : List String)
    (m : Nat), m ∈ ms →
      getStateHash (applyMove cur.cube m) ∈ v ++ (bfsKids cur ms v).map nodeHash := by
  intro ms
  induction ms with
  | nil => intro v m hm; simp at hm
  | cons m0 ms ih =>
    intro v m hm
    by_cases h : getStateHash (applyMove cur.cube m0) ∈ v
    · simp only [bfsKids, h, if_pos]
      rcases List.mem_cons.mp hm with rfl | hm'
      · exact List.mem_append.mpr (Or.inl h)
      · exact ih v m hm'
    · simp only [bfsKids, h, if_neg, not_false_iff, List.map_cons]
      rcases List.mem_cons.mp hm with rfl | hm'
      · simp [nodeHash]
      · have := ih (v ++ [getStateHash (applyMove cur.cube m0)]) m hm'
        rw [List.append_assoc] at this
        simpa [nodeHash] using this

/-! ## BFS loop invariant -/

/-- Walking a solving word out of the dequeued region: if a recorded state
reaches the solved state in `v` moves, and every dequeued node is unsolved
and fully expanded, some *queued* node reaches it at least as fast. -/
theorem bfsWalk (D Q : List SearchNode) (K : Nat)
    (hclosed : ∀ d ∈ D, ∀ m ∈ possibleMoves,
      applyMove d.cube m ∈ (D ++ Q).map SearchNode.cube)
    (hnosolve : ∀ d ∈ D, isSolved d.cube = false)
    (hdepth : ∀ n ∈ Q, n.depth ≤ K) :
    ∀ (v : List Nat) (x : CubeState), x ∈ (D ++ Q).map SearchNode.cube →
      (∀ m ∈ v, m ∈ possibleMoves) → applyMoves x v = createSolvedState →
      ∃ n ∈ Q, ∃ v₂ : List Nat, (∀ m ∈ v₂, m ∈ possibleMoves) ∧
        applyMoves n.cube v₂ = createSolvedState ∧ v₂.length ≤ v.length ∧
        n.depth ≤ K := by
  intro v
  induction v with
  | nil =>
    intro x hx _ hsolve
    rw [List.mem_map] at hx
    obtain ⟨n, hn, rfl⟩ := hx
    rcases List.mem_append.mp hn with hnD | hnQ
    · exfalso
      have h1 : isSolved n.cube = true := by
        rw [applyMoves] at hsolve
        simp only [List.foldl_nil] at hsolve
        rw [isSolved_iff, hsolve]
      rw [hnosolve n hnD] at h1
      cases h1
    · refine ⟨n, hnQ, [], by simp, ?_, by simp, hdepth n hnQ⟩
      simpa using hsolve
  | cons m v ih =>
    intro x hx hmem hsolve
    rw [List.mem_map] at hx
    obtain ⟨n, hn, rfl⟩ := hx
    rcases List.mem_append.mp hn with hnD | hnQ
    · have hchild : applyMove n.cube m ∈ (D ++ Q).map SearchNode.cube :=
        hclosed n hnD m (hmem m (List.mem_cons_self m v))
      have hsolve' : applyMoves (applyMove n.cube m) v = createSolvedState := by
        rw [← applyMoves_cons]
        exact hsolve
      obtain ⟨n₂, hn₂, v₂, hv₂, hs₂, hl₂, hd₂⟩ := ih (applyMove n.cube m) hchild
        (fun x hx => hmem x (List.mem_cons_of_mem m hx)) hsolve'
      exact ⟨n₂, hn₂, v₂, hv₂, hs₂, by simp only [List.length_cons]; omega, hd₂⟩
    · exact ⟨n, hnQ, m :: v, hmem, hsolve, le_refl _, hdepth n hnQ⟩

/-- Budget bound: with the invariant and a live depth-`B` witness (`B ≤ 8`),
the number of dequeued nodes is at most `87381`, below the 100000 budget. -/
theorem bfsDequeued_le (start : CubeState) (D Q : List SearchNode) (B : Nat)
    (hB : B ≤ 8) (hinv : bfsInv start D Q) (hcov : bfsCov Q B) :
    D.length ≤ 87381 := by
  obtain ⟨hpath, hnodup, hsorted, htwo, hclosed, hnosolve⟩ := hinv
  obtain ⟨nw, hnwQ, v, hv, hs, hb⟩ := hcov
  have hcross : ∀ d ∈ D, d.depth ≤ nw.depth := by
    rw [List.map_append] at hsorted
    have h3 := (List.pairwise_append.mp hsorted).2.2
    intro d hd
    exact h3 d.depth (List.mem_map_of_mem _ hd) nw.depth (List.mem_map_of_mem _ hnwQ)
  have hdepthB : ∀ d ∈ D, d.moves.length ≤ 8 := by
    intro d hd
    have hOK := hpath d (List.mem_append.mpr (Or.inl hd))
    have h1 := hcross d hd
    have h2 := hOK.2.2
    omega
  have hD : (D.map SearchNode.cube).Nodup := by
    rw [List.map_append] at hnodup
    exact (List.nodup_append.mp hnodup).1
  have hmapeq : (D.map SearchNode.moves).map (applyMoves start) =
      D.map SearchNode.cube := by
    rw [List.map_map]
    apply List.map_congr_left
    intro d hd
    exact (hpath d (List.mem_append.mpr (Or.inl hd))).2.1
  have hmoves : (D.map SearchNode.moves).Nodup := by
    apply List.Nodup.of_map (applyMoves start)
    rw [hmapeq]
    exact hD
  have hcount := words_length_le (D.map SearchNode.moves) hmoves ?_
  · simpa [List.length_map] using hcount
  · intro w hw
    rw [List.mem_map] at hw
    obtain ⟨d, hd, rfl⟩ := hw
    refine ⟨?_, hdepthB d hd⟩
    intro m hm
    exact mem_possible_lt m ((hpath d (List.mem_append.mpr (Or.inl hd))).1 m hm)

/-- Two equal-depth consecutive-level kids have pairwise ordered depths. -/
theorem pairwise_depth_const (l : List SearchNode) (c : Nat)
    (h : ∀ k ∈ l, k.depth = c) : (l.map SearchNode.depth).Pairwise (· ≤ ·) := by
  induction l with
  | nil => simp
  | cons a t ih =>
    rw [List.map_cons, List.pairwise_cons]
    refine ⟨?_, ih (fun k hk => h k (List.mem_cons_of_mem a hk))⟩
    intro b hb
    rw [List.mem_map] at hb
    obtain ⟨k, hk, rfl⟩ := hb
    rw [h a (List.mem_cons_self a t), h k (List.mem_cons_of_mem a hk)]

/-- Main BFS loop theorem: under the invariant, with some queued node within
depth budget `B ≤ 8` of the solved state, the loop returns a move list that
solves the start state and has length at most `B`. -/
theorem bfsMain (start : CubeState) (B : Nat) (hB : B ≤ 8) :
    ∀ (fuel : Nat) (D Q : List SearchNode), fuel = maxNodes - D.length →
      bfsInv start D Q → bfsCov Q B →
      applyMoves start (bfsLoop fuel Q ((D ++ Q).map nodeHash) D.length).moves =
          createSolvedState ∧
        (bfsLoop fuel Q ((D ++ Q).map nodeHash) D.length).moves.length ≤ B := by
  intro fuel
  induction fuel with
  | zero =>
    intro D Q hfuel hinv hcov
    exfalso
    have hle := bfsDequeued_le start D Q B hB hinv hcov
    have hmax : maxNodes = 100000 := rfl
    omega
  | succ f ih =>
    intro D Q hfuel hinv hcov
    obtain ⟨nw, hnwQ, v, hv, hs, hb⟩ := hcov
    cases Q with
    | nil => cases hnwQ
    | cons C rest =>
      have hle := bfsDequeued_le start D (C :: rest) B hB hinv ⟨nw, hnwQ, v, hv, hs, hb⟩
      have hmax : maxNodes = 100000 := rfl
      have hlt : D.length < maxNodes := by omega
      obtain ⟨hpath, hnodup, hsorted, htwo, hclosed, hnosolve⟩ := hinv
      have hCmem : C ∈ D ++ C :: rest :=
        List.mem_append.mpr (Or.inr (List.mem_cons_self C rest))
      have hCOK := hpath C hCmem
      have hCd : C.depth ≤ nw.depth := by
        rcases List.mem_cons.mp hnwQ with heq | hr
        · rw [heq]
        · rw [List.map_append] at hsorted
          have h2 := (List.pairwise_append.mp hsorted).2.1
          rw [List.map_cons] at h2
          exact (List.pairwise_cons.mp h2).1 nw.depth (List.mem_map_of_mem _ hr)
      by_cases hsol : isSolved C.cube = true
      · have hres : bfsLoop (f + 1) (C :: rest) ((D ++ C :: rest).map nodeHash) D.length
            = ⟨C.moves, D.length + 1, "BFS"⟩ := by
          simp only [bfsLoop]
          rw [if_neg (by omega), if_pos hsol]
        rw [hres]
        refine ⟨?_, ?_⟩
        · rw [hCOK.2.1]
          exact (isSolved_iff C.cube).mp hsol
        · show C.moves.length ≤ B
          have h1 := hCOK.2.2
          have h2 : nw.depth + v.length ≤ B := hb
          omega
      · have hsolF : isSolved C.cube = false := by
          rcases h' : isSolved C.cube with _ | _
          · rfl
          · exact absurd h' hsol
        set V := (D ++ C :: rest).map nodeHash with hV
        set kids := bfsKids C possibleMoves V with hkids
        have hkmem : ∀ k ∈ kids, ∃ m ∈ possibleMoves,
            k = ⟨applyMove C.cube m, C.moves ++ [m], C.depth + 1, 0⟩ :=
          fun k hk => bfsKids_mem C possibleMoves V k hk
        have hkdepth : ∀ k ∈ kids, k.depth = C.depth + 1 := by
          intro k hk
          obtain ⟨m, _, rfl⟩ := hkmem k hk
          rfl
        have hlist : (D ++ [C]) ++ (rest ++ kids) = (D ++ C :: rest) ++ kids := by
          simp [List.append_assoc]
        have hVnodup : V.Nodup := by
          rw [hV]
          have he : (D ++ C :: rest).map nodeHash
              = ((D ++ C :: rest).map SearchNode.cube).map getStateHash := by
            rw [List.map_map]
            rfl
          rw [he]
          exact List.Nodup.map_on (fun x _ y _ hxy => getStateHash_inj x y hxy) hnodup
        have hnewhash : ((D ++ [C]) ++ (rest ++ kids)).map nodeHash
            = V ++ kids.map nodeHash := by
          rw [hlist, List.map_append, hV]
        have hnodup' : (((D ++ [C]) ++ (rest ++ kids)).map SearchNode.cube).Nodup := by
          have h1 : (V ++ kids.map nodeHash).Nodup :=
            bfsKids_nodup_hash C possibleMoves V hVnodup
          rw [← hnewhash] at h1
          apply List.Nodup.of_map getStateHash
          have h2 : (((D ++ [C]) ++ (rest ++ kids)).map SearchNode.cube).map getStateHash
              = ((D ++ [C]) ++ (rest ++ kids)).map nodeHash := by
            rw [List.map_map]
            rfl
          rw [h2]
          exact h1
        have htwoC : ∀ n ∈ D ++ C :: rest, n.depth ≤ C.depth + 1 :=
          fun n hn => htwo n hn C rest rfl
        have hsorted' :
            (((D ++ [C]) ++ (rest ++ kids)).map SearchNode.depth).Pairwise (· ≤ ·) := by
          rw [hlist, List.map_append, List.pairwise_append]
          refine ⟨hsorted, pairwise_depth_const kids (C.depth + 1) hkdepth, ?_⟩
          intro a ha b hb2
          rw [List.mem_map] at ha hb2
          obtain ⟨n, hn, rfl⟩ := ha
          obtain ⟨k, hk, rfl⟩ := hb2
          rw [hkdepth k hk]
          exact htwoC n hn
        have hpath' : ∀ n ∈ (D ++ [C]) ++ (rest ++ kids), nodeOK start n := by
          intro n hn
          rw [hlist] at hn
          rcases List.mem_append.mp hn with hold | hkid
          · exact hpath n hold
          · obtain ⟨m, hmPM, rfl⟩ := hkmem n hkid
            refine ⟨?_, ?_, ?_⟩
            · intro x hx
              rcases List.mem_append.mp hx with h1 | h1
              · exact hCOK.1 x h1
              · rw [List.mem_singleton] at h1
                rw [h1]
                exact hmPM
            · rw [applyMoves_append, hCOK.2.1, applyMoves_singleton]
            · have := hCOK.2.2
              simp only [List.length_append, List.length_cons, List.length_nil]
              omega
        have hCle : ∀ hd', hd' ∈ rest ++ kids → C.depth ≤ hd'.depth := by
          intro hd' hhd
          rcases List.mem_append.mp hhd with h1 | h1
          · rw [List.map_append] at hsorted
            have h2 := (List.pairwise_append.mp hsorted).2.1
            rw [List.map_cons] at h2
            exact (List.pairwise_cons.mp h2).1 hd'.depth (List.mem_map_of_mem _ h1)
          · rw [hkdepth hd' h1]
            omega
        have htwo' : ∀ n ∈ (D ++ [C]) ++ (rest ++ kids), ∀ hd t,
            rest ++ kids = hd :: t → n.depth ≤ hd.depth + 1 := by
          intro n hn hd t heq
          have hhd : hd ∈ rest ++ kids := by
            rw [heq]
            exact List.mem_cons_self _ _
          have h1 : n.depth ≤ C.depth + 1 := by
            rw [hlist] at hn
            rcases List.mem_append.mp hn with hold | hkid
            · exact htwoC n hold
            · rw [hkdepth n hkid]
          have h2 := hCle hd hhd
          omega
        have hcubesub : ∀ c, c ∈ (D ++ C :: rest).map SearchNode.cube →
            c ∈ ((D ++ [C]) ++ (rest ++ kids)).map SearchNode.cube := by
          intro c hc
          rw [List.mem_map] at hc ⊢
          obtain ⟨n, hn, rfl⟩ := hc
          refine ⟨n, ?_, rfl⟩
          rw [hlist]
          exact List.mem_append.mpr (Or.inl hn)
        have hclosed' : ∀ d ∈ D ++ [C], ∀ m ∈ possibleMoves,
            applyMove d.cube m ∈ ((D ++ [C]) ++ (rest ++ kids)).map SearchNode.cube := by
          intro d hd m hm
          rcases List.mem_append.mp hd with h1 | h1
          · exact hcubesub _ (hclosed d h1 m hm)
          · rw [List.mem_singleton] at h1
            rw [h1]
            have hc := bfsKids_cover C possibleMoves V m hm
            rw [← hnewhash] at hc
            exact (hash_mem_iff _ _).mp hc
        have hnosolve' : ∀ d ∈ D ++ [C], isSolved d.cube = false := by
          intro d hd
          rcases List.mem_append.mp hd with h1 | h1
          · exact hnosolve d h1
          · rw [List.mem_singleton] at h1
            rw [h1]
            exact hsolF
        have hcov' : bfsCov (rest ++ kids) B := by
          rcases List.mem_cons.mp hnwQ with heq | hr
          · -- the witness was the dequeued front node
            subst heq
            cases v with
            | nil =>
              exfalso
              have hsC : nw.cube = createSolvedState := by
                simpa [applyMoves] using hs
              have : isSolved nw.cube = true := by
                rw [isSolved_iff]
                exact hsC
              rw [hsolF] at this
              cases this
            | cons m v' =>
              have hmPM : m ∈ possibleMoves := hv m (List.mem_cons_self m v')
              have hchild : applyMove nw.cube m
                  ∈ ((D ++ [nw]) ++ (rest ++ kids)).map SearchNode.cube :=
                hclosed' nw (List.mem_append.mpr (Or.inr (List.mem_singleton.mpr rfl)))
                  m hmPM
              have hdepthQ' : ∀ n ∈ rest ++ kids, n.depth ≤ nw.depth + 1 := by
                intro n hn
                rcases List.mem_append.mp hn with h1 | h1
                · exact htwoC n
                    (List.mem_append.mpr (Or.inr (List.mem_cons_of_mem nw h1)))
                · rw [hkdepth n h1]
              have hsolve' : applyMoves (applyMove nw.cube m) v' = createSolvedState := by
                rw [← applyMoves_cons]
                exact hs
              obtain ⟨n₂, hn₂, v₂, hv₂, hs₂, hl₂, hd₂⟩ :=
                bfsWalk (D ++ [nw]) (rest ++ kids) (nw.depth + 1) hclosed' hnosolve'
                  hdepthQ' v' (applyMove nw.cube m) hchild
                  (fun x hx => hv x (List.mem_cons_of_mem m hx)) hsolve'
              refine ⟨n₂, hn₂, v₂, hv₂, hs₂, ?_⟩
              have hb2 : nw.depth + (m :: v').length ≤ B := hb
              rw [List.length_cons] at hb2
              omega
          · exact ⟨nw, List.mem_append.mpr (Or.inl hr), v, hv, hs, hb⟩
        have hfuel' : f = maxNodes - (D ++ [C]).length := by
          have : (D ++ [C]).length = D.length + 1 := by simp
          omega
        have happly := ih (D ++ [C]) (rest ++ kids) hfuel'
          ⟨hpath', hnodup', hsorted', htwo', hclosed', hnosolve'⟩ hcov'
        have hDlen : (D ++ [C]).length = D.length + 1 := by simp
        have hstep : bfsLoop (f + 1) (C :: rest) V D.length
            = bfsLoop f (rest ++ kids) (V ++ kids.map nodeHash) (D.length + 1) := by
          simp only [bfsLoop]
          rw [if_neg (by omega), if_neg (by simp [hsolF])]
          rw [bfsExpand_eq C possibleMoves rest V]
        rw [hstep, ← hnewhash, ← hDlen]
        exact happly

/-- BFS on a state scrambled by at most 8 arbitrary move identifiers finds a
solving move list no longer than the scramble. -/
theorem solveBFS_short (ms : List Nat) (h8 : ms.length ≤ 8) :
    applyMoves (applyMoves createSolvedState ms)
        (solveBFS (applyMoves createSolvedState ms)).moves = createSolvedState ∧
      (solveBFS (applyMoves createSolvedState ms)).moves.length ≤ ms.length := by
  obtain ⟨ws, hmem, hlen, hundo⟩ := exists_undo ms createSolvedState
  set s₀ := applyMoves createSolvedState ms with hs₀
  have hinv : bfsInv s₀ [] [⟨s₀, [], 0, 0⟩] := by
    refine ⟨?_, ?_, ?_, ?_, ?_, ?_⟩
    · intro n hn
      simp only [List.nil_append, List.mem_singleton] at hn
      rw [hn]
      exact ⟨by simp, rfl, rfl⟩
    · simp
    · simp
    · intro n hn hd t heq
      simp only [List.nil_append, List.mem_singleton] at hn
      rw [hn]
      exact Nat.zero_le _
    · intro d hd
      cases hd
    · intro d hd
      cases hd
  have hcov : bfsCov [⟨s₀, [], 0, 0⟩] ms.length := by
    refine ⟨⟨s₀, [], 0, 0⟩, List.mem_singleton.mpr rfl, ws, hmem, hundo, ?_⟩
    simpa using hlen
  have h := bfsMain s₀ ms.length h8 maxNodes [] [⟨s₀, [], 0, 0⟩] (by simp) hinv hcov
  simpa [solveBFS, nodeHash] using h

/-- The `nodesExplored` a BFS run returns is the number of nodes it dequeued
(the length of its exploration trace) plus the count it started from. -/
theorem bfsLoop_explored (fuel : Nat) : ∀ (Q : List SearchNode) (V : List String)
    (ex : Nat), (bfsLoop fuel Q V ex).nodesExplored
      = ex + (bfsTraceLoop fuel Q V ex).length := by
  induction fuel with
  | zero => intro Q V ex; simp [bfsLoop, bfsTraceLoop]
  | succ f ih =>
    intro Q V ex
    cases Q with
    | nil => simp [bfsLoop, bfsTraceLoop]
    | cons cur rest =>
      by_cases h1 : maxNodes ≤ ex
      · simp [bfsLoop, bfsTraceLoop, if_pos h1]
      · by_cases h2 : isSolved cur.cube = true
        · simp [bfsLoop, bfsTraceLoop, if_neg h1, if_pos h2]
        · simp only [bfsLoop, bfsTraceLoop, if_neg h1, if_neg h2, List.length_cons]
          rw [ih]
          omega

/-- `solveBFS` counts exactly its dequeued nodes. -/
theorem solveBFS_explored (cube : CubeState) :
    (solveBFS cube).nodesExplored = (bfsTrace cube).length := by
  have h := bfsLoop_explored maxNodes [⟨cube, [], 0, 0⟩] [getStateHash cube] 0
  simpa [solveBFS, bfsTrace] using h

/-- Any non-empty move list `solveBFS` returns solves its start state; with
no solution found (budget exhausted or queue empty) the list is empty. -/
theorem bfsLoop_sound (start : CubeState) (fuel : Nat) :
    ∀ (Q : List SearchNode) (V : List String) (ex : Nat),
      (∀ n ∈ Q, applyMoves start n.moves = n.cube) →
      (bfsLoop fuel Q V ex).moves = [] ∨
        applyMoves start (bfsLoop fuel Q V ex).moves = createSolvedState := by
  induction fuel with
  | zero => intro Q V ex _; exact Or.inl rfl
  | succ f ih =>
    intro Q V ex hQ
    cases Q with
    | nil => exact Or.inl rfl
    | cons cur rest =>
      by_cases h1 : maxNodes ≤ ex
      · simp only [bfsLoop, if_pos h1]
        left
        trivial
      · by_cases h2 : isSolved cur.cube = true
        · simp only [bfsLoop, if_neg h1, if_pos h2]
          right
          rw [hQ cur (List.mem_cons_self cur rest)]
          exact (isSolved_iff cur.cube).mp h2
        · simp only [bfsLoop, if_neg h1, if_neg h2]
          rw [bfsExpand_eq cur possibleMoves rest V]
          apply ih
          intro n hn
          rcases List.mem_append.mp hn with h3 | h3
          · exact hQ n (List.mem_cons_of_mem cur h3)
          · obtain ⟨m, _, rfl⟩ := bfsKids_mem cur possibleMoves V n h3
            rw [applyMoves_append, hQ cur (List.mem_cons_self cur rest),
              applyMoves_singleton]

/-! ## IDA* on a center-broken state: never found, strictly growing
thresholds, and a count of nodes actually explored -/

theorem skipRev_exists (path : List Nat) :
    ∃ m ∈ possibleMoves, skipRev path m = false := by
  cases h : path.getLast? with
  | none => exact ⟨0, by decide, by simp [skipRev, h]⟩
  | some last =>
    by_cases hl : last = 1
    · refine ⟨2, by decide, ?_⟩
      rw [hl] at h
      simp [skipRev, h]
    · refine ⟨0, by decide, ?_⟩
      simp only [skipRev, h]
      simp [beq_eq_false_iff_ne, hl]

theorem idaKids_never (fuel : Nat) (s : CubeState) (g th : Nat) (path : List Nat)
    (hS : ∀ (s' : CubeState) (g' : Nat) (path' : List Nat), s'.white.m11 ≠ 0 →
      th < fuel + g' → ∃ t, idaSearch fuel s' g' th path' = .bound (.fin t) ∧ th < t)
    (hP : s.white.m11 ≠ 0) (hg : th < fuel + g + 1) :
    ∀ (ms : List Nat) (acc : EN),
      (acc = .inf ∨ ∃ a, acc = .fin a ∧ th < a) →
      ∃ b, idaKids fuel s g th path ms acc = .bound b ∧
        (b = .inf ∨ ∃ a, b = .fin a ∧ th < a) ∧
        (((∃ m ∈ ms, skipRev path m = false) ∨ (∃ a, acc = .fin a ∧ th < a)) →
          ∃ a, b = .fin a ∧ th < a) := by
  intro ms
  induction ms with
  | nil =>
    intro acc hacc
    refine ⟨acc, by simp [idaKids], hacc, ?_⟩
    intro h
    rcases h with ⟨m, hm, _⟩ | h
    · exact absurd hm (List.not_mem_nil m)
    · exact h
  | cons m ms ih =>
    intro acc hacc
    by_cases hskip : skipRev path m = true
    · have heq : idaKids fuel s g th path (m :: ms) acc
          = idaKids fuel s g th path ms acc := by
        simp only [idaKids]
        rw [if_pos hskip]
      rw [heq]
      obtain ⟨b, hbe, hb, himp⟩ := ih acc hacc
      refine ⟨b, hbe, hb, ?_⟩
      intro h
      apply himp
      rcases h with ⟨m', hm', hsk⟩ | h
      · rcases List.mem_cons.mp hm' with rfl | hm''
        · rw [hskip] at hsk
          cases hsk
        · exact Or.inl ⟨m', hm'', hsk⟩
      · exact Or.inr h
    · have hskipF : skipRev path m = false := by
        rcases h' : skipRev path m with _ | _
        · rfl
        · exact absurd h' hskip
      have hPc : (applyMove s m).white.m11 ≠ 0 := by
        rw [applyMove_white_center]
        exact hP
      obtain ⟨t, hts, htt⟩ := hS (applyMove s m) (g + 1) (path ++ [m]) hPc (by omega)
      have heq : idaKids fuel s g th path (m :: ms) acc
          = idaKids fuel s g th path ms
            (if (EN.fin t).ltB acc then EN.fin t else acc) := by
        simp only [idaKids]
        rw [if_neg (by simp [hskipF]), hts]
      rw [heq]
      have hacc' : ∃ a, (if (EN.fin t).ltB acc then EN.fin t else acc) = EN.fin a ∧
          th < a := by
        by_cases hlt : (EN.fin t).ltB acc = true
        · exact ⟨t, by rw [if_pos hlt], htt⟩
        · rcases hacc with rfl | ⟨a, rfl, hta⟩
          · exfalso
            have : (EN.fin t).ltB EN.inf = true := rfl
            exact hlt this
          · exact ⟨a, by rw [if_neg hlt], hta⟩
      obtain ⟨b, hbe, hb, himp⟩ := ih _ (Or.inr hacc')
      exact ⟨b, hbe, hb, fun _ => himp (Or.inr hacc')⟩

theorem idaSearch_never : ∀ (fuel th : Nat) (s : CubeState) (g : Nat)
    (path : List Nat), s.white.m11 ≠ 0 → th < fuel + g →
    ∃ t, idaSearch fuel s g th path = .bound (.fin t) ∧ th < t := by
  intro fuel
  induction fuel with
  | zero =>
    intro th s g path hP hg
    have hf : th < g + heuristic s := by omega
    refine ⟨g + heuristic s, ?_, hf⟩
    simp only [idaSearch]
    rw [if_pos hf]
  | succ f ih =>
    intro th s g path hP hg
    by_cases hf : th < g + heuristic s
    · refine ⟨g + heuristic s, ?_, hf⟩
      simp only [idaSearch]
      rw [if_pos hf]
    · have hsol : isSolved s = false := not_isSolved_of_center s hP
      obtain ⟨b, hbe, _, himp⟩ := idaKids_never f s g th path
        (fun s' g' path' hP' hg' => ih th s' g' path' hP' hg') hP (by omega)
        possibleMoves .inf (Or.inl rfl)
      obtain ⟨a, hba, hta⟩ := himp (Or.inl (skipRev_exists path))
      refine ⟨a, ?_, hta⟩
      simp only [idaSearch]
      rw [if_neg hf, if_neg (by simp [hsol]), hbe, hba]

theorem idaCountK_ge (fuel : Nat) (s : CubeState) (g th : Nat) (path : List Nat)
    (X : Nat)
    (hX : ∀ m, skipRev path m = false → m ∈ possibleMoves →
      X ≤ idaCountS fuel (applyMove s m) (g + 1) th (path ++ [m]))
    (hnf : ∀ m ∈ possibleMoves, skipRev path m = false →
      ∀ p, idaSearch fuel (applyMove s m) (g + 1) th (path ++ [m]) ≠ .found p) :
    ∀ ms : List Nat, (∀ m ∈ ms, m ∈ possibleMoves) →
      (ms.countP (fun m => !skipRev path m)) * X ≤ idaCountK fuel s g th path ms := by
  intro ms
  induction ms with
  | nil => simp [idaCountK]
  | cons m ms ih =>
    intro hms
    have hmsrest : ∀ x ∈ ms, x ∈ possibleMoves :=
      fun x hx => hms x (List.mem_cons_of_mem m hx)
    have hmPM : m ∈ possibleMoves := hms m (List.mem_cons_self m ms)
    by_cases hsk : skipRev path m = true
    · have hcnt : (m :: ms).countP (fun m => !skipRev path m)
          = ms.countP (fun m => !skipRev path m) := by
        rw [List.countP_cons]
        simp [hsk]
      have heq : idaCountK fuel s g th path (m :: ms)
          = idaCountK fuel s g th path ms := by
        simp only [idaCountK]
        rw [if_pos hsk]
      rw [hcnt, heq]
      exact ih hmsrest
    · have hskF : skipRev path m = false := by
        rcases h' : skipRev path m with _ | _
        · rfl
        · exact absurd h' hsk
      have hcnt : (m :: ms).countP (fun m => !skipRev path m)
          = ms.countP (fun m => !skipRev path m) + 1 := by
        rw [List.countP_cons]
        simp [hskF]
      have heq : idaCountK fuel s g th path (m :: ms)
          = idaCountS fuel (applyMove s m) (g + 1) th (path ++ [m]) +
            idaCountK fuel s g th path ms := by
        simp only [idaCountK]
        rw [if_neg (by simp [hskF])]
        rcases hr : idaSearch fuel (applyMove s m) (g + 1) th (path ++ [m]) with p | t
        · exact absurd hr (hnf m hmPM hskF p)
        · rfl
      rw [hcnt, heq]
      have h1 := ih hmsrest
      have h2 := hX m hskF hmPM
      have h3 : (ms.countP (fun m => !skipRev path m) + 1) * X
          = ms.countP (fun m => !skipRev path m) * X + X := by ring
      omega

theorem countP_nonskip_ge (path : List Nat) :
    3 ≤ possibleMoves.countP (fun m => !skipRev path m) := by
  cases h : path.getLast? with
  | none => simp [possibleMoves, skipRev, h, List.countP_cons, List.countP_nil]
  | some last =>
    rcases last with _ | _ | _ | _ | l <;>
      simp [possibleMoves, skipRev, h, List.countP_cons, List.countP_nil]

theorem idaCountS_ge : ∀ (fuel th g : Nat) (s : CubeState) (path : List Nat),
    s.white.m11 ≠ 0 → th < fuel + g →
    3 ^ (th + 1 - (g + 13)) ≤ idaCountS fuel s g th path := by
  intro fuel
  induction fuel with
  | zero =>
    intro th g s path hP hg
    have hz : th + 1 - (g + 13) = 0 := by omega
    rw [hz]
    simp [idaCountS]
  | succ f ih =>
    intro th g s path hP hg
    by_cases hf : th < g + heuristic s
    · have hh := heuristic_le s
      have hz : th + 1 - (g + 13) = 0 := by omega
      rw [hz]
      have heq : idaCountS (f + 1) s g th path = 1 := by
        simp only [idaCountS]
        rw [if_pos hf]
      omega
    · have hsol : isSolved s = false := not_isSolved_of_center s hP
      have hX : ∀ m, skipRev path m = false → m ∈ possibleMoves →
          3 ^ (th + 1 - (g + 1 + 13))
            ≤ idaCountS f (applyMove s m) (g + 1) th (path ++ [m]) := by
        intro m _ _
        refine ih th (g + 1) (applyMove s m) (path ++ [m]) ?_ (by omega)
        rw [applyMove_white_center]
        exact hP
      have hnf : ∀ m ∈ possibleMoves, skipRev path m = false →
          ∀ p, idaSearch f (applyMove s m) (g + 1) th (path ++ [m]) ≠ .found p := by
        intro m _ _ p hcon
        obtain ⟨t, ht, _⟩ := idaSearch_never f th (applyMove s m) (g + 1)
          (path ++ [m]) (by rw [applyMove_white_center]; exact hP) (by omega)
        rw [hcon] at ht
        cases ht
      have hk := idaCountK_ge f s g th path (3 ^ (th + 1 - (g + 1 + 13))) hX hnf
        possibleMoves (fun m hm => hm)
      have hc := countP_nonskip_ge path
      have heq : idaCountS (f + 1) s g th path
          = 1 + idaCountK f s g th path possibleMoves := by
        simp only [idaCountS]
        rw [if_neg hf, if_neg (by simp [hsol])]
      rw [heq]
      have h3X : 3 ^ (th + 1 - (g + 13)) ≤ 3 * 3 ^ (th + 1 - (g + 1 + 13)) := by
        by_cases hcase : th + 1 ≤ g + 13
        · have hz : th + 1 - (g + 13) = 0 := by omega
          rw [hz]
          have hpos : 0 < 3 ^ (th + 1 - (g + 1 + 13)) := Nat.pos_pow_of_pos _ (by omega)
          omega
        · have he : th + 1 - (g + 13) = (th + 1 - (g + 1 + 13)) + 1 := by omega
          rw [he, pow_succ]
          exact le_of_eq (by ring)
      have hcnt : 3 * 3 ^ (th + 1 - (g + 1 + 13))
          ≤ possibleMoves.countP (fun m => !skipRev path m)
            * 3 ^ (th + 1 - (g + 1 + 13)) :=
        Nat.mul_le_mul_right _ hc
      omega

/-- The `solveKorfIDA` driver on a center-broken state runs its full 200
iterations, adding 1000 per iteration, and returns normally with an empty
move list and counter 200000. -/
theorem korfLoop_broken (s : CubeState) (hP : s.white.m11 ≠ 0) :
    ∀ (fuel th ex : Nat), ex + 1000 * fuel = 200000 →
      korfLoop fuel s th ex = ⟨[], 200000, "KORF_IDA"⟩ := by
  intro fuel
  induction fuel with
  | zero =>
    intro th ex hex
    have hx : ex = 200000 := by omega
    rw [korfLoop, hx]
  | succ f ihf =>
    intro th ex hex
    have hmax : maxNodes * 2 = 200000 := rfl
    have hexlt : ex < maxNodes * 2 := by omega
    obtain ⟨t, ht, htt⟩ := idaSearch_never (th + 1) th s 0 [] hP (by omega)
    simp only [korfLoop]
    rw [if_pos hexlt, ht]
    exact ihf t (ex + 1000) (by omega)

theorem korfCount_ge (s : CubeState) (hP : s.white.m11 ≠ 0) :
    ∀ (fuel : Nat), 1 ≤ fuel → ∀ (th ex : Nat), ex + 1000 * fuel = 200000 →
      3 ^ (th + fuel - 13) ≤ korfCount fuel s th ex := by
  intro fuel
  induction fuel with
  | zero => intro h; omega
  | succ f ihf =>
    intro _ th ex hex
    have hmax : maxNodes * 2 = 200000 := rfl
    have hexlt : ex < maxNodes * 2 := by omega
    obtain ⟨t, ht, htt⟩ := idaSearch_never (th + 1) th s 0 [] hP (by omega)
    have hcS := idaCountS_ge (th + 1) th 0 s [] hP (by omega)
    simp only [korfCount]
    rw [if_pos hexlt, ht]
    change 3 ^ (th + (f + 1) - 13)
      ≤ idaCountS (th + 1) s 0 th [] + korfCount f s t (ex + 1000)
    by_cases hf : f = 0
    · subst hf
      have hz : korfCount 0 s t (ex + 1000) = 0 := rfl
      rw [hz]
      have he : th + 1 - (0 + 13) = th + (0 + 1) - 13 := by omega
      rw [he] at hcS
      omega
    · have hrec := ihf (by omega) t (ex + 1000) (by omega)
      have hmono : 3 ^ (th + (f + 1) - 13) ≤ 3 ^ (t + f - 13) :=
        Nat.pow_le_pow_right (by omega) (by omega)
      omega

theorem solveKorfIDA_broken (s : CubeState) (hP : s.white.m11 ≠ 0) :
    solveKorfIDA s = ⟨[], 200000, "KORF_IDA"⟩ :=
  korfLoop_broken s hP 200 (heuristic s) 0 (by norm_num)

theorem solveKorfActual_big (s : CubeState) (hP : s.white.m11 ≠ 0) :
    200000 < solveKorfActual s := by
  have h := korfCount_ge s hP 200 (by omega) (heuristic s) 0 (by norm_num)
  have h2 : (3 : Nat) ^ 12 ≤ 3 ^ (heuristic s + 200 - 13) :=
    Nat.pow_le_pow_right (by omega) (by omega)
  have h3 : (200000 : Nat) < 3 ^ 12 := by norm_num
  unfold solveKorfActual
  omega

/-! ## The claims -/

/-- C1: the claim says every search strategy branches over the complete set
of 12 legal moves at every reached node.  The branching list every strategy
iterates (`const possibleMoves = [Move.U, Move.U_PRIME, Move.R,
Move.R_PRIME]`, consumed here by `bfsExpand`, `bfsLoop` and `idaKids`) has
exactly 4 entries, is not the 12-value legal move set, and omits the F move
(identifier 4): the search loops branch over a proper subset. -/
theorem claim_C1_branching_is_proper_subset :
    possibleMoves.length = 4 ∧ possibleMoves ≠ legalMoves ∧
      legalMoves.length = 12 ∧ (4 : Nat) ∈ legalMoves ∧ (4 : Nat) ∉ possibleMoves := by
  decide

/-- C2: the claim says the IDA* heuristic (misplaced facelets divided by 4,
floored) never overestimates the true distance to solved.  At the state one
U turn away from solved the heuristic is 3, yet the state is not solved and
one move (U-prime, identifier 1) solves it, so its true optimal distance is
1 < 3: the heuristic overestimates and is not admissible. -/
theorem claim_C2_heuristic_overestimates :
    heuristic (applyMove createSolvedState 0) = 3 ∧
      applyMoves (applyMove createSolvedState 0) [1] = createSolvedState ∧
      applyMove createSolvedState 0 ≠ createSolvedState := by
  refine ⟨by decide, by decide, by decide⟩

/-- C3 counterexample: the claim says an out-of-range move identifier fails
with an `InvalidMove` error.  The source's `applyMove` returns `void` and
contains no `throw` — its `default` branch only logs a warning — so the
embedding is a total function, and evaluating it at identifier 12 returns
normally with the state unchanged instead of failing. -/
theorem claim_C3_no_error_on_out_of_range :
    applyMove createSolvedState 12 = createSolvedState := rfl

/-- C3 as amended: applying a move identifier outside the 12 legal values
leaves the state unmodified, but no `InvalidMove` error is raised — the call
returns normally (the engine merely logs a console warning). -/
theorem claim_C3_out_of_range_noop (s : CubeState) (m : Nat) (h : 12 ≤ m) :
    applyMove s m = s :=
  applyMove_noop_of_ge s m (by omega)

theorem claim_C3_out_of_range_noop_witness :
    12 ≤ 13 ∧ applyMove brokenState 13 = brokenState :=
  ⟨by decide, claim_C3_out_of_range_noop brokenState 13 (by decide)⟩

/-- C4 counterexample: the claim says `scramble(count)` fails with
`InvalidArgument` for `count ≤ 0`, in particular `count = 0`.  The source
performs no validation: the loop body runs zero times, so the call returns
normally with an empty move list (state untouched) instead of failing. -/
theorem claim_C4_scramble_zero_returns :
    scramble createSolvedState 0 (fun _ => 0) = (createSolvedState, []) := rfl

/-- C4 as amended: `scramble(count)` with `count ≤ 0` returns normally with
an empty move list and the state unchanged; no `InvalidArgument` error is
raised. -/
theorem claim_C4_scramble_nonpos_noop (s : CubeState) (c : Int)
    (pick : Nat → Fin 12) (hc : c ≤ 0) : scramble s c pick = (s, []) := by
  unfold scramble
  rw [Int.toNat_of_nonpos hc]
  rfl

theorem claim_C4_scramble_nonpos_noop_witness :
    (-3 : Int) ≤ 0 ∧ scramble brokenState (-3) (fun _ => 5) = (brokenState, []) :=
  ⟨by decide, claim_C4_scramble_nonpos_noop brokenState (-3) (fun _ => 5) (by decide)⟩

/-- C5: for every scramble sequence of at most 8 move identifiers applied to
the solved state, `solveBFS` finds a move list that solves the resulting
state and is no longer than the scramble (the scramble's implemented moves
can be undone move for move, BFS with the injective fingerprint visited set
returns a shortest such list, and at most `1 + 4 + ... + 4^8 = 87381 <
100000` nodes are dequeued first, so the budget never interferes). -/
theorem claim_C5_bfs_within_scramble_depth (ms : List Nat) (h8 : ms.length ≤ 8) :
    applyMoves (applyMoves createSolvedState ms)
        (solveBFS (applyMoves createSolvedState ms)).moves = createSolvedState ∧
      (solveBFS (applyMoves createSolvedState ms)).moves.length ≤ ms.length :=
  solveBFS_short ms h8

theorem claim_C5_bfs_within_scramble_depth_witness :
    ([0] : List Nat).length ≤ 8 ∧
      (applyMoves (applyMoves createSolvedState [0])
          (solveBFS (applyMoves createSolvedState [0])).moves = createSolvedState ∧
        (solveBFS (applyMoves createSolvedState [0])).moves.length
          ≤ ([0] : List Nat).length) :=
  ⟨by decide, claim_C5_bfs_within_scramble_depth [0] (by decide)⟩

/-- C6 counterexample: the claim says a strategy that exhausts its node
budget returns an empty move list with `nodesExplored` equal to the actual
number of nodes explored.  On the center-broken state (unsolvable, so IDA*
runs all its budgeted iterations), `solveKorfIDA` does return normally with
an empty move list, but reports `nodesExplored = 200000` (the hardcoded
1000-per-iteration estimate of its driver), while the number of `idaSearch`
nodes actually examined (`solveKorfActual`) is different (far larger). -/
theorem claim_C6_ida_count_is_estimate :
    solveKorfIDA brokenState = ⟨[], 200000, "KORF_IDA"⟩ ∧
      solveKorfActual brokenState ≠ 200000 := by
  refine ⟨solveKorfIDA_broken brokenState (by decide), ?_⟩
  have h := solveKorfActual_big brokenState (by decide)
  omega

/-- C6 as amended: exhausting the node budget without a solution is a normal
return with an empty move list; BFS's `nodesExplored` is the actual number
of dequeued nodes, while IDA*'s is 1000 times its iteration count (200000
after a full run), which exceeds the actual count on a center-broken state.
Also, any non-empty list BFS returns genuinely solves its start state. -/
theorem claim_C6_budget_exhaustion_normal :
    (∀ s : CubeState, s.white.m11 ≠ 0 →
      solveKorfIDA s = ⟨[], 200000, "KORF_IDA"⟩ ∧ 200000 < solveKorfActual s) ∧
      (∀ s : CubeState, (solveBFS s).nodesExplored = (bfsTrace s).length) ∧
      (∀ s : CubeState, (solveBFS s).moves = [] ∨
        applyMoves s (solveBFS s).moves = createSolvedState) := by
  refine ⟨fun s h => ⟨solveKorfIDA_broken s h, solveKorfActual_big s h⟩,
    solveBFS_explored, fun s => ?_⟩
  have h := bfsLoop_sound s maxNodes [⟨s, [], 0, 0⟩] [getStateHash s] 0 ?_
  · simpa [solveBFS] using h
  · intro n hn
    rw [List.mem_singleton] at hn
    rw [hn]
    rfl

theorem claim_C6_budget_exhaustion_normal_witness :
    solveKorfIDA brokenState = ⟨[], 200000, "KORF_IDA"⟩ ∧
      200000 < solveKorfActual brokenState :=
  claim_C6_budget_exhaustion_normal.1 brokenState (by decide)

/-- C7: applying any of the 12 moves and then its inverse (the
opposite-direction quarter turn of the same face, which in the enum is the
other identifier of the same even/odd pair) restores the state exactly; in
particular doing so from the solved state leaves `isSolved` true.  For the
four implemented moves this is the real permutation inverse; for the eight
unimplemented identifiers both turns are no-ops. -/
theorem claim_C7_move_inverse :
    (∀ m, m < 12 → ∀ s : CubeState,
        applyMove (applyMove s m) (inverseMove m) = s) ∧
      (∀ m, m < 12 →
        isSolved (applyMove (applyMove createSolvedState m) (inverseMove m)) = true) := by
  refine ⟨fun m hm s => applyMove_inverse_helper m hm s, fun m hm => ?_⟩
  rw [applyMove_inverse_helper m hm]
  decide

theorem claim_C7_move_inverse_witness :
    (0 : Nat) < 12 ∧
      isSolved (applyMove (applyMove createSolvedState 0) (inverseMove 0)) = true :=
  ⟨by decide, claim_C7_move_inverse.2 0 (by decide)⟩

/-- C8: applying any face's clockwise quarter turn four times restores every
state (for the implemented U and R turns this is the order-4 rotation; for
the four unimplemented clockwise identifiers each application is a no-op). -/
theorem claim_C8_fourth_power_identity :
    ∀ m ∈ clockwiseMoves, ∀ s : CubeState,
      applyMove (applyMove (applyMove (applyMove s m) m) m) m = s :=
  fun m hm s => applyMove_pow4_helper m hm s

theorem claim_C8_fourth_power_identity_witness :
    (0 : Nat) ∈ clockwiseMoves ∧
      applyMove (applyMove (applyMove (applyMove brokenState 0) 0) 0) 0 = brokenState :=
  ⟨by decide, claim_C8_fourth_power_identity 0 (by decide) brokenState⟩

/-- C9: the fingerprint (`JSON.stringify` of the face arrays) of two states
is equal exactly when the states agree on all 54 facelets: each facelet
renders to one digit character at a fixed string position, so there are no
false collisions. -/
theorem claim_C9_fingerprint_injective :
    ∀ a b : CubeState, getStateHash a = getStateHash b ↔ a = b :=
  getStateHash_eq_iff

/-- C10: every move of the F, B, D and L faces (identifiers 4 through 11)
falls through `applyMove`'s `default` branch and leaves the state completely
unchanged, and a scramble can therefore return a move list containing moves
that did not alter the state (here a 1-move scramble whose draw is the F
move returns `[4]` while the state stays solved). -/
theorem claim_C10_unimplemented_moves_noop :
    (∀ (s : CubeState) (m : Nat), 4 ≤ m → m ≤ 11 → applyMove s m = s) ∧
      (scramble createSolvedState 1 (fun _ => 4)).2 = [4] ∧
      (scramble createSolvedState 1 (fun _ => 4)).1 = createSolvedState := by
  refine ⟨fun s m h4 _ => applyMove_noop_of_ge s m h4, rfl, rfl⟩

theorem claim_C10_unimplemented_moves_noop_witness :
    4 ≤ 7 ∧ 7 ≤ 11 ∧ applyMove brokenState 7 = brokenState :=
  ⟨by decide, by decide,
    claim_C10_unimplemented_moves_noop.1 brokenState 7 (by decide) (by decide)⟩
